import Mathlib

/-!
# Verification of the dirty-region rendering engine of `cartesian-drawing-board`

This file shallowly embeds the incremental re-rendering engine of the
repository (files `src/scripts/dirtyRegions.js`, `src/scripts/Renderer.js`,
`src/scripts/drawing.js`, `src/canvasFrameworkBuilder.js`,
`src/LayerManager.js`) and proves or refutes the specification's testable
properties about it.

Numeric values that are JavaScript doubles in the source are modelled as
rationals (`ℚ`); `Math.floor` / `Math.ceil` become `Int.floor` / `Int.ceil`.
-/

/-- A dirty region `{x, y, width, height}` in device-pixel space, as pushed
onto `renderer.dirtyRegions` (`dirtyRegions.js`). -/
structure Region where
  x : ℚ
  y : ℚ
  width : ℚ
  height : ℚ
  deriving DecidableEq, Repr

/-- `regionsOverlap(a, b)` from `dirtyRegions.js` (lines 26–34): two regions
overlap unless one is strictly beyond the far edge of the other; touching
edges (equality) count as overlapping. -/
def regionsOverlap (a b : Region) : Bool :=
  !(a.x + a.width < b.x ||
    b.x + b.width < a.x ||
    a.y + a.height < b.y ||
    b.y + b.height < a.y)

/-- `combineRegions(a, b)` from `dirtyRegions.js` (lines 37–48): the
axis-aligned bounding box of the two regions. -/
def combineRegions (a b : Region) : Region :=
  let x := min a.x b.x
  let y := min a.y b.y
  let right := max (a.x + a.width) (b.x + b.width)
  let bottom := max (a.y + a.height) (b.y + b.height)
  { x := x, y := y, width := right - x, height := bottom - y }

/-- The inner `for j` loop of `mergeRegions` (`dirtyRegions.js` lines 69–77):
scan the not-yet-processed tail once, left to right; absorb into `base` every
region overlapping the current (possibly already grown) `base`. Returns the
grown base, the regions left unabsorbed (in order), and whether any merge
happened. -/
def absorb (base : Region) : List Region → Region × List Region × Bool
  | [] => (base, [], false)
  | r :: rs =>
    if regionsOverlap base r then
      let (b, l, _) := absorb (combineRegions base r) rs
      (b, l, true)
    else
      let (b, l, m) := absorb base rs
      (b, r :: l, m)

theorem absorb_length (base : Region) (l : List Region) :
    (absorb base l).2.1.length ≤ l.length := by
  induction l generalizing base with
  | nil => simp [absorb]
  | cons r rs ih =>
    simp only [absorb]
    by_cases h : regionsOverlap base r = true
    · simp only [h, if_true]
      exact le_trans (ih (combineRegions base r)) (Nat.le_succ _)
    · simp only [h, if_false]
      simpa using ih base

/-- One full pass of the `do … while` loop of `mergeRegions`
(`dirtyRegions.js` lines 58–82): each not-yet-processed region in turn becomes
a base and absorbs every later overlapping region; returns the pass's `merged`
list and the pass's `didMerge` flag. -/
def onePass : List Region → List Region × Bool
  | [] => ([], false)
  | r :: rs =>
    let a := absorb r rs
    let p := onePass a.2.1
    (a.1 :: p.1, a.2.2 || p.2)
  termination_by l => l.length
  decreasing_by
    simp only [List.length_cons]
    exact Nat.lt_succ_of_le (absorb_length r rs)

theorem absorb_didMerge_length (base : Region) (l : List Region)
    (h : (absorb base l).2.2 = true) : (absorb base l).2.1.length < l.length := by
  induction l generalizing base with
  | nil => simp [absorb] at h
  | cons x xs ih =>
    simp only [absorb] at h ⊢
    by_cases hov : regionsOverlap base x = true
    · simp only [hov, if_true]
      exact Nat.lt_succ_of_le (absorb_length _ _)
    · simp only [hov, if_false] at h ⊢
      simp only [List.length_cons]
      exact Nat.succ_lt_succ (ih _ h)

theorem onePass_length (l : List Region) : (onePass l).1.length ≤ l.length := by
  induction' hn : l.length using Nat.strong_induction_on with n ih generalizing l
  match l, hn with
  | [], _ => simp [onePass]
  | r :: rs, hn =>
    simp only [List.length_cons] at hn
    simp only [onePass]
    have h1 := absorb_length r rs
    have h2 := ih (absorb r rs).2.1.length (by omega) (absorb r rs).2.1 rfl
    simp only [List.length_cons]
    omega

theorem onePass_didMerge_length (l : List Region) :
    (onePass l).2 = true → (onePass l).1.length < l.length := by
  induction' hn : l.length using Nat.strong_induction_on with n ih generalizing l
  match l, hn with
  | [], _ => intro h; simp [onePass] at h
  | r :: rs, hn =>
    intro h
    simp only [List.length_cons] at hn
    simp only [onePass] at h ⊢
    simp only [List.length_cons]
    have hlen := absorb_length r rs
    have hpass := onePass_length (absorb r rs).2.1
    rcases Bool.or_eq_true_iff.mp h with hm | hm
    · have := absorb_didMerge_length r rs hm
      omega
    · have := ih (absorb r rs).2.1.length (by omega) (absorb r rs).2.1 rfl hm
      omega

/-- The `do … while (didMerge)` loop of `mergeRegions`: repeat passes until a
pass performs zero merges, then return that pass's output. -/
def mergeLoop (l : List Region) : List Region :=
  let p := onePass l
  if h : p.2 = true then mergeLoop p.1 else p.1
  termination_by l.length
  decreasing_by
    exact onePass_didMerge_length l h

/-- `mergeRegions(regions)` from `dirtyRegions.js` (lines 51–85): lists of at
most one region are returned unchanged; otherwise passes run to the fixed
point. -/
def mergeRegions (regions : List Region) : List Region :=
  if regions.length ≤ 1 then regions else mergeLoop regions

/-! ## Area coverage -/

/-- A point lies in the closed rectangle a region describes. -/
def inRegion (r : Region) (p : ℚ × ℚ) : Prop :=
  r.x ≤ p.1 ∧ p.1 ≤ r.x + r.width ∧ r.y ≤ p.2 ∧ p.2 ≤ r.y + r.height

instance (r : Region) (p : ℚ × ℚ) : Decidable (inRegion r p) := by
  unfold inRegion; infer_instance

/-- A point is covered by the union of the areas of a list of regions. -/
def covers (l : List Region) (p : ℚ × ℚ) : Prop :=
  ∃ r ∈ l, inRegion r p

instance (l : List Region) (p : ℚ × ℚ) : Decidable (covers l p) := by
  unfold covers; infer_instance

theorem inRegion_combineRegions_left (a b : Region) (p : ℚ × ℚ)
    (h : inRegion a p) : inRegion (combineRegions a b) p := by
  obtain ⟨h1, h2, h3, h4⟩ := h
  refine ⟨?_, ?_, ?_, ?_⟩ <;> simp only [combineRegions]
  · exact le_trans (min_le_left _ _) h1
  · have : a.x + a.width ≤ max (a.x + a.width) (b.x + b.width) := le_max_left _ _
    have hx : min a.x b.x ≤ a.x := min_le_left _ _
    linarith
  · exact le_trans (min_le_left _ _) h3
  · have : a.y + a.height ≤ max (a.y + a.height) (b.y + b.height) := le_max_left _ _
    have hy : min a.y b.y ≤ a.y := min_le_left _ _
    linarith

theorem inRegion_combineRegions_right (a b : Region) (p : ℚ × ℚ)
    (h : inRegion b p) : inRegion (combineRegions a b) p := by
  obtain ⟨h1, h2, h3, h4⟩ := h
  refine ⟨?_, ?_, ?_, ?_⟩ <;> simp only [combineRegions]
  · exact le_trans (min_le_right _ _) h1
  · have : b.x + b.width ≤ max (a.x + a.width) (b.x + b.width) := le_max_right _ _
    have hx : min a.x b.x ≤ b.x := min_le_right _ _
    linarith
  · exact le_trans (min_le_right _ _) h3
  · have : b.y + b.height ≤ max (a.y + a.height) (b.y + b.height) := le_max_right _ _
    have hy : min a.y b.y ≤ b.y := min_le_right _ _
    linarith

theorem covers_cons (x : Region) (l : List Region) (p : ℚ × ℚ) :
    covers (x :: l) p ↔ inRegion x p ∨ covers l p := by
  simp [covers]

theorem absorb_covers (base : Region) (l : List Region) (p : ℚ × ℚ)
    (h : covers (base :: l) p) :
    covers ((absorb base l).1 :: (absorb base l).2.1) p := by
  induction l generalizing base with
  | nil => simpa [absorb] using h
  | cons r rs ih =>
    rw [covers_cons, covers_cons] at h
    simp only [absorb]
    by_cases hov : regionsOverlap base r = true
    · simp only [hov, if_true]
      apply ih
      rw [covers_cons]
      rcases h with hb | hr | hrs
      · exact Or.inl (inRegion_combineRegions_left _ _ _ hb)
      · exact Or.inl (inRegion_combineRegions_right _ _ _ hr)
      · exact Or.inr hrs
    · simp only [hov, if_false]
      rw [covers_cons]
      rcases h with hb | hr | hrs
      · have := ih base ((covers_cons _ _ _).mpr (Or.inl hb))
        rw [covers_cons] at this
        rcases this with h1 | h2
        · exact Or.inl h1
        · exact Or.inr ((covers_cons _ _ _).mpr (Or.inr h2))
      · exact Or.inr ((covers_cons _ _ _).mpr (Or.inl hr))
      · have := ih base ((covers_cons _ _ _).mpr (Or.inr hrs))
        rw [covers_cons] at this
        rcases this with h1 | h2
        · exact Or.inl h1
        · exact Or.inr ((covers_cons _ _ _).mpr (Or.inr h2))

theorem onePass_covers (l : List Region) (p : ℚ × ℚ) (h : covers l p) :
    covers (onePass l).1 p := by
  induction' hn : l.length using Nat.strong_induction_on with n ih generalizing l
  match l, hn with
  | [], _ => simpa [covers] using h
  | r :: rs, hn =>
    simp only [List.length_cons] at hn
    simp only [onePass]
    have hab := absorb_covers r rs p h
    rw [covers_cons] at hab
    have hlen := absorb_length r rs
    rw [covers_cons]
    rcases hab with h1 | h2
    · exact Or.inl h1
    · exact Or.inr (ih (absorb r rs).2.1.length (by omega) _ h2 rfl)

theorem mergeLoop_covers (l : List Region) (p : ℚ × ℚ) (h : covers l p) :
    covers (mergeLoop l) p := by
  induction' hn : l.length using Nat.strong_induction_on with n ih generalizing l
  rw [mergeLoop]
  by_cases hd : (onePass l).2 = true
  · simp only [hd, dif_pos]
    exact ih (onePass l).1.length (hn ▸ onePass_didMerge_length l hd)
      (onePass l).1 (onePass_covers l p h) rfl
  · simp only [hd, dif_neg, not_false_iff]
    exact onePass_covers l p h

/-! ## Fixed-point (no-merge) pass analysis -/

theorem absorb_no_merge (base : Region) (l : List Region)
    (h : (absorb base l).2.2 = false) :
    (absorb base l).1 = base ∧ (absorb base l).2.1 = l ∧
      ∀ r ∈ l, regionsOverlap base r = false := by
  induction l generalizing base with
  | nil => simp [absorb]
  | cons r rs ih =>
    simp only [absorb] at h ⊢
    by_cases hov : regionsOverlap base r = true
    · simp [hov] at h
    · rw [Bool.not_eq_true] at hov
      simp only [hov, Bool.false_eq_true, if_false] at h ⊢
      obtain ⟨h1, h2, h3⟩ := ih base h
      refine ⟨h1, by rw [h2], ?_⟩
      intro q hq
      rcases List.mem_cons.mp hq with rfl | hq
      · exact hov
      · exact h3 q hq

theorem onePass_no_merge (l : List Region) (h : (onePass l).2 = false) :
    (onePass l).1 = l ∧ l.Pairwise (fun a b => regionsOverlap a b = false) := by
  induction' hn : l.length using Nat.strong_induction_on with n ih generalizing l
  match l, hn with
  | [], _ => simp [onePass]
  | r :: rs, hn =>
    simp only [List.length_cons] at hn
    simp only [onePass] at h ⊢
    rcases Bool.or_eq_false_iff.mp h with ⟨h1, h2⟩
    obtain ⟨hb, hrest, hno⟩ := absorb_no_merge r rs h1
    rw [hrest] at h2 ⊢
    obtain ⟨hps, hpw⟩ := ih rs.length (by omega) rs h2 rfl
    exact ⟨by rw [hb, hps], List.Pairwise.cons hno hpw⟩

theorem mergeLoop_pairwise (l : List Region) :
    (mergeLoop l).Pairwise (fun a b => regionsOverlap a b = false) := by
  induction' hn : l.length using Nat.strong_induction_on with n ih generalizing l
  rw [mergeLoop]
  by_cases hd : (onePass l).2 = true
  · simp only [hd, dif_pos]
    exact ih (onePass l).1.length (hn ▸ onePass_didMerge_length l hd) _ rfl
  · simp only [hd, dif_neg, not_false_iff]
    have hnm := onePass_no_merge l (by simpa using hd)
    rw [hnm.1]
    exact hnm.2

/-! ## Fuel-bounded merge loop (pass counting) -/

/-- The merge loop run for at most `fuel` passes; `none` when the fixed point
is not reached within them. -/
def mergeLoopFuel : Nat → List Region → Option (List Region)
  | 0, _ => none
  | fuel + 1, l =>
    let p := onePass l
    if p.2 = true then mergeLoopFuel fuel p.1 else some p.1

theorem onePass_pos_length (l : List Region) (h : 0 < l.length) :
    0 < (onePass l).1.length := by
  match l with
  | [] => simp at h
  | r :: rs => simp [onePass]

theorem mergeLoopFuel_adequate (fuel : Nat) (l : List Region)
    (hpos : 0 < fuel) (hle : l.length ≤ fuel) :
    mergeLoopFuel fuel l = some (mergeLoop l) := by
  induction fuel generalizing l with
  | zero => omega
  | succ f ih =>
    simp only [mergeLoopFuel]
    rw [mergeLoop]
    by_cases hd : (onePass l).2 = true
    · simp only [hd, if_true, dif_pos]
      have hlt := onePass_didMerge_length l hd
      have hne : 0 < l.length := by omega
      have hp := onePass_pos_length l hne
      exact ih (onePass l).1 (by omega) (by omega)
    · rw [if_neg hd, dif_neg hd]

/-! ## Claim theorems about the merge engine -/

/-- C1 — Merge coverage: for every finite list `R` of regions, every point
covered by some region of `R` is covered by some region of `mergeRegions R`;
merging (bounding-box union) may over-cover but never covers less than its
input. -/
theorem mergeRegions_covers (R : List Region) (p : ℚ × ℚ) (h : covers R p) :
    covers (mergeRegions R) p := by
  unfold mergeRegions
  by_cases hlen : R.length ≤ 1
  · rwa [if_pos hlen]
  · rw [if_neg hlen]
    exact mergeLoop_covers R p h

theorem mergeRegions_covers_witness :
    covers [⟨0, 0, 10, 10⟩, ⟨5, 5, 10, 10⟩] (6, 6) ∧
      covers (mergeRegions [⟨0, 0, 10, 10⟩, ⟨5, 5, 10, 10⟩]) (6, 6) := by
  have hc : covers [(⟨0, 0, 10, 10⟩ : Region), ⟨5, 5, 10, 10⟩] (6, 6) :=
    ⟨⟨0, 0, 10, 10⟩, by simp, by norm_num [inRegion]⟩
  exact ⟨hc, mergeRegions_covers _ _ hc⟩

/-- C2 — Merge non-overlap: no two distinct regions in the output of
`mergeRegions` overlap according to `regionsOverlap` (touching edges counting
as overlap). -/
theorem mergeRegions_pairwise_not_overlap (R : List Region) :
    (mergeRegions R).Pairwise (fun a b => regionsOverlap a b = false) := by
  unfold mergeRegions
  by_cases hlen : R.length ≤ 1
  · rw [if_pos hlen]
    match R, hlen with
    | [], _ => exact List.Pairwise.nil
    | [r], _ => simp
  · rw [if_neg hlen]
    exact mergeLoop_pairwise R

/-- C9 — Merge termination: a pass that performs at least one merge strictly
decreases the length of the working list, and the repeat-until-zero-merges
loop reaches its fixed point within at most `n` passes for `n` input
regions (`mergeLoopFuel n` already returns the fixed point). -/
theorem mergeRegions_termination (l : List Region) :
    ((onePass l).2 = true → (onePass l).1.length < l.length) ∧
      (0 < l.length → mergeLoopFuel l.length l = some (mergeLoop l)) :=
  ⟨onePass_didMerge_length l,
   fun h => mergeLoopFuel_adequate l.length l h le_rfl⟩

theorem mergeRegions_termination_witness :
    (onePass [⟨0, 0, 10, 10⟩, ⟨5, 5, 10, 10⟩]).2 = true ∧
      (onePass [⟨0, 0, 10, 10⟩, ⟨5, 5, 10, 10⟩]).1.length <
        [(⟨0, 0, 10, 10⟩ : Region), ⟨5, 5, 10, 10⟩].length ∧
      0 < [(⟨0, 0, 10, 10⟩ : Region), ⟨5, 5, 10, 10⟩].length ∧
      mergeLoopFuel [(⟨0, 0, 10, 10⟩ : Region), ⟨5, 5, 10, 10⟩].length
          [⟨0, 0, 10, 10⟩, ⟨5, 5, 10, 10⟩] =
        some (mergeLoop [⟨0, 0, 10, 10⟩, ⟨5, 5, 10, 10⟩]) := by
  have h1 : (onePass [(⟨0, 0, 10, 10⟩ : Region), ⟨5, 5, 10, 10⟩]).2 = true := by
    simp only [onePass, absorb]
    norm_num [regionsOverlap]
  refine ⟨h1, (mergeRegions_termination _).1 h1, by decide,
    (mergeRegions_termination _).2 (by decide)⟩

/-! ## Renderer state, dirty marking and the draw routine
(`Renderer.js`, `dirtyRegions.js`, `drawing.js`) -/

/-- Element type tags dispatched on by `Renderer.drawElementByType`. -/
inductive ElemType
  | rect
  | text
  | image
  deriving DecidableEq, Repr

/-- A screen bounding box as returned by `getElementScreenBounds`
(`utils/interactionUtils.js` lines 148–202): top-left corner plus
dimensions. -/
structure Bounds where
  left : ℚ
  top : ℚ
  width : ℚ
  height : ℚ
  deriving DecidableEq, Repr

/-- A scene element as the rendering engine sees it.  `bounds` is the result
of the external `getElementScreenBounds` capability for the current frame
(`none` models the `{left: null, …, width: 0, height: 0}` result returned
when the element has no computable size); `loaded` / `error` / `hasSize` are
the image-loading fields read by `drawImageElement`; `paintOk` records
whether the underlying canvas paint primitive invoked for this element
(`ctx.fillRect` / `ctx.fillText` / `ctx.drawImage`) completes or throws. -/
structure Element where
  id : Nat
  etype : ElemType
  bounds : Option Bounds
  loaded : Bool
  error : Bool
  hasSize : Bool
  paintOk : Bool
  deriving DecidableEq, Repr

/-- The renderer fields touched by the dirty-region engine
(`Renderer.js` constructor). -/
structure RendererState where
  elements : List Element
  dirtyRegions : List Region
  fullRedraw : Bool
  canvasWidth : ℚ
  canvasHeight : ℚ
  editingElement : Option Nat
  deriving DecidableEq, Repr

/-- The fixed artifact-avoidance buffer of `markDirty` (`dirtyRegions.js`
line 9: `const buffer = 2`). -/
def dirtyBuffer : ℚ := 2

/-- The region `markDirty` pushes for valid bounds (`dirtyRegions.js`
lines 10–15): floor/ceil pixel snapping with the buffer applied on every
side. -/
def bufferedRegion (b : Bounds) : Region :=
  { x := ((⌊b.left - dirtyBuffer⌋ : ℤ) : ℚ)
    y := ((⌊b.top - dirtyBuffer⌋ : ℤ) : ℚ)
    width := ((⌈b.width + dirtyBuffer * 2⌉ : ℤ) : ℚ)
    height := ((⌈b.height + dirtyBuffer * 2⌉ : ℤ) : ℚ) }

/-- `markDirty(renderer, element)` (`dirtyRegions.js` lines 5–16): a no-op
when the element has no valid bounds (`!bounds || width <= 0 ||
height <= 0`), otherwise pushes exactly one buffered region. -/
def markDirty (s : RendererState) (e : Element) : RendererState :=
  match e.bounds with
  | none => s
  | some b =>
    if b.width ≤ 0 ∨ b.height ≤ 0 then s
    else { s with dirtyRegions := s.dirtyRegions ++ [bufferedRegion b] }

/-- `markEntireCanvasDirty(renderer)` (`dirtyRegions.js` lines 19–23). -/
def markEntireCanvasDirty (s : RendererState) : RendererState :=
  { s with fullRedraw := true
           dirtyRegions := [⟨0, 0, s.canvasWidth, s.canvasHeight⟩] }

/-- What a type-specific paint routine drew, when it returned normally. -/
inductive PaintAction
  | rectDrawn
  | textDrawn
  | imageDrawn
  | placeholderDrawn
  | nothingDrawn
  deriving DecidableEq, Repr

/-- `drawRectElement` (`drawing.js` lines 9–24): one `ctx.fillRect`, no
try/catch — a throw from the primitive propagates to the caller. -/
def drawRectElement (e : Element) : Except Unit PaintAction :=
  if e.paintOk then .ok .rectDrawn else .error ()

/-- `drawTextElement` (`drawing.js` lines 27–103): canvas text primitives,
no try/catch — a throw propagates to the caller. -/
def drawTextElement (e : Element) : Except Unit PaintAction :=
  if e.paintOk then .ok .textDrawn else .error ()

/-- `drawImageElement` (`drawing.js` lines 103–143): with no numeric size a
placeholder is drawn (or nothing) and the function returns; not loaded or
errored draws a placeholder; otherwise `ctx.drawImage` runs inside
`try { … } catch`, and on failure a placeholder is drawn instead — no paint
failure ever propagates out of this routine. -/
def drawImageElement (e : Element) : Except Unit PaintAction :=
  if !e.hasSize then
    if !e.loaded || e.error then .ok .placeholderDrawn else .ok .nothingDrawn
  else if !e.loaded || e.error then .ok .placeholderDrawn
  else if e.paintOk then .ok .imageDrawn
  else .ok .placeholderDrawn

/-- `Renderer.drawElementByType` (`Renderer.js` lines 205–223): dispatch on
the element's type tag, with no try/catch of its own. -/
def drawElementByType (e : Element) : Except Unit PaintAction :=
  match e.etype with
  | .rect => drawRectElement e
  | .text => drawTextElement e
  | .image => drawImageElement e

/-- The element paint loop of `Renderer.draw`
(`this.elements.forEach(el => … drawElementByType(el))`): elements paint in
order; an uncaught throw escapes the `forEach` and aborts the frame, leaving
the remaining elements unpainted.  Returns the ids painted to completion and
the id of the aborting element, if any. -/
def paintAll : List Element → List Nat × Option Nat
  | [] => ([], none)
  | e :: rest =>
    match drawElementByType e with
    | .error _ => ([], some e.id)
    | .ok _ =>
      let p := paintAll rest
      (e.id :: p.1, p.2)

/-- The `el === this.editingElement` test, modelled by id (the renderer hands
out ids from an incrementing counter, so ids identify elements). -/
def isEditing (s : RendererState) (e : Element) : Bool :=
  s.editingElement = some e.id

/-- The id of the first element of the list that is not being edited, if
any — the element at which the partial-redraw element loop of `Renderer.draw`
throws.  Line 179 reads `DirtyRegions.getElementScreenBounds(this, el)`, but
`dirtyRegions.js` only imports `getElementScreenBounds` and never re-exports
it, so that namespace member is `undefined` and the call raises a TypeError.
The `el === this.editingElement` guard on line 178 returns before the call,
so the loop only gets past elements that are being edited; the bounds-skip
and overlap tests on lines 180–194 are unreachable. -/
def firstNonEditing (s : RendererState) : List Element → Option Nat
  | [] => none
  | e :: rest => if isEditing s e then firstNonEditing s rest else some e.id

/-- Observable outcome of one `Renderer.draw` call: the effective frame plan
(full redraw flag, cleared areas, elements selected for repaint) and the
paint loop's outcome. -/
structure DrawResult where
  fullRedraw : Bool
  clearedWhole : Bool
  regions : List Region
  selected : List Element
  painted : List Nat
  aborted : Option Nat
  deriving DecidableEq, Repr

/-- `Renderer.draw` (`Renderer.js` lines 142–202).  Full-redraw branch:
clear the whole canvas and paint every element except the one being edited;
an uncaught paint throw escapes `draw` before the trailing reset lines.
Partial branch (nonempty dirty list): the pending regions are merged and the
merged rectangles cleared, but the element loop then throws a TypeError at
its first non-edited element (line 179 calls
`DirtyRegions.getElementScreenBounds`, which `dirtyRegions.js` does not
export), so no element is ever selected or painted on this branch, and the
loop completes only when every element is skipped as being edited (or there
are none).  Otherwise: no clearing, no painting.  `aborted` carries the id
of the element at which the frame threw — a paint throw on the full branch,
the TypeError on the partial branch; the trailing reset
(`fullRedraw = false; dirtyRegions = []`, lines 200–201) runs only when the
branch ran to completion, so an aborted frame leaves the dirty state
untouched. -/
def draw (s : RendererState) : DrawResult × RendererState :=
  let reset : RendererState := { s with fullRedraw := false, dirtyRegions := [] }
  if s.fullRedraw then
    let sel := s.elements.filter (fun e => !(isEditing s e))
    let p := paintAll sel
    ({ fullRedraw := true, clearedWhole := true, regions := [],
       selected := sel, painted := p.1, aborted := p.2 },
     if p.2.isSome then s else reset)
  else if 0 < s.dirtyRegions.length then
    let merged := mergeRegions s.dirtyRegions
    match firstNonEditing s s.elements with
    | some i =>
      ({ fullRedraw := false, clearedWhole := false, regions := merged,
         selected := [], painted := [], aborted := some i }, s)
    | none =>
      ({ fullRedraw := false, clearedWhole := false, regions := merged,
         selected := [], painted := [], aborted := none }, reset)
  else
    ({ fullRedraw := false, clearedWhole := false, regions := [],
       selected := [], painted := [], aborted := none }, reset)

/-- `LayerManager.render` (`LayerManager.js` lines 15–35): with
`regions == null` (full redraw) every element of the layer renders; otherwise
only those passing the element's `intersectsRegions` test.  That per-element
test is not among this repository's sources, so it is abstracted as a
predicate argument. -/
def layerRenderSelection (intersects : Element → List Region → Bool)
    (elements : List Element) : Option (List Region) → List Element
  | none => elements
  | some regions => elements.filter (fun e => intersects e regions)

/-! ## Dirty-state bookkeeping lemmas -/

theorem markDirty_preserves (s : RendererState) (e : Element) :
    (markDirty s e).elements = s.elements ∧
    (markDirty s e).fullRedraw = s.fullRedraw ∧
    (markDirty s e).editingElement = s.editingElement := by
  unfold markDirty
  cases e.bounds with
  | none => exact ⟨rfl, rfl, rfl⟩
  | some b =>
    by_cases h : b.width ≤ 0 ∨ b.height ≤ 0
    · simp [h]
    · simp [h]

theorem foldl_markDirty_preserves (s : RendererState) (es : List Element) :
    (es.foldl markDirty s).elements = s.elements ∧
    (es.foldl markDirty s).fullRedraw = s.fullRedraw ∧
    (es.foldl markDirty s).editingElement = s.editingElement := by
  induction es generalizing s with
  | nil => exact ⟨rfl, rfl, rfl⟩
  | cons e rest ih =>
    simp only [List.foldl_cons]
    obtain ⟨h1, h2, h3⟩ := markDirty_preserves s e
    obtain ⟨g1, g2, g3⟩ := ih (markDirty s e)
    exact ⟨g1.trans h1, g2.trans h2, g3.trans h3⟩

/-! ## Claim theorems about the renderer -/

/-- C3 — Full-redraw dominance: after `markEntireCanvasDirty` followed by any
number of `markDirty` calls, the next frame is a full redraw — the pending
region list is ignored (plan regions are empty), the whole canvas is cleared,
and every element (except a currently edited one; all of them when nothing is
being edited) is selected for painting. -/
theorem fullRedraw_dominance (s : RendererState) (es : List Element) :
    (draw (es.foldl markDirty (markEntireCanvasDirty s))).1.fullRedraw = true ∧
    (draw (es.foldl markDirty (markEntireCanvasDirty s))).1.regions = [] ∧
    (draw (es.foldl markDirty (markEntireCanvasDirty s))).1.clearedWhole = true ∧
    (draw (es.foldl markDirty (markEntireCanvasDirty s))).1.selected =
      s.elements.filter (fun e => !(isEditing s e)) ∧
    (s.editingElement = none →
      (draw (es.foldl markDirty (markEntireCanvasDirty s))).1.selected =
        s.elements) := by
  have hp := foldl_markDirty_preserves (markEntireCanvasDirty s) es
  have h1 : (es.foldl markDirty (markEntireCanvasDirty s)).elements =
      s.elements := hp.1
  have h2 : (es.foldl markDirty (markEntireCanvasDirty s)).fullRedraw =
      true := hp.2.1
  have h3 : (es.foldl markDirty (markEntireCanvasDirty s)).editingElement =
      s.editingElement := hp.2.2
  have hsel :
      (draw (es.foldl markDirty (markEntireCanvasDirty s))).1.selected =
        s.elements.filter (fun e => !(isEditing s e)) := by
    simp [draw, h2, h1, h3, isEditing]
  refine ⟨by simp [draw, h2], by simp [draw, h2], by simp [draw, h2],
    hsel, ?_⟩
  intro hnone
  rw [hsel]
  simp [isEditing, hnone]

theorem fullRedraw_dominance_witness :
    (draw (([] : List Element).foldl markDirty (markEntireCanvasDirty
        ⟨[⟨0, .rect, some ⟨1, 1, 5, 5⟩, true, false, true, true⟩],
         [], false, 800, 600, none⟩))).1.selected =
      [⟨0, .rect, some ⟨1, 1, 5, 5⟩, true, false, true, true⟩] :=
  (fullRedraw_dominance
    ⟨[⟨0, .rect, some ⟨1, 1, 5, 5⟩, true, false, true, true⟩],
     [], false, 800, 600, none⟩ []).2.2.2.2 rfl

/-- C4 — Single consumption / reset after paint: once a draw completes
(neither an uncaught paint throw on the full branch nor the partial branch's
TypeError aborted it before the reset lines), the pending regions are empty
and the full-redraw flag is clear, so a second consecutive draw with no
intervening mark is a no-op plan — nothing cleared, nothing selected, nothing
painted — and leaves the state unchanged. -/
theorem draw_single_consumption (s : RendererState)
    (h : (draw s).1.aborted = none) :
    (draw s).2.fullRedraw = false ∧
    (draw s).2.dirtyRegions = [] ∧
    (draw ((draw s).2)).1 =
      { fullRedraw := false, clearedWhole := false, regions := [],
        selected := [], painted := [], aborted := none } ∧
    (draw ((draw s).2)).2 = (draw s).2 := by
  have hreset : (draw s).2 =
      { s with fullRedraw := false, dirtyRegions := [] } := by
    by_cases hf : s.fullRedraw = true
    · simp [draw, hf] at h ⊢
      simp [h]
    · by_cases hd : 0 < s.dirtyRegions.length
      · cases hfe : firstNonEditing s s.elements with
        | some i => simp [draw, hf, hd, hfe] at h
        | none => simp [draw, hf, hd, hfe]
      · simp [draw, hf, hd]
  refine ⟨by rw [hreset], by rw [hreset], ?_, ?_⟩
  · rw [hreset]
    simp [draw]
  · rw [hreset]
    simp [draw]

theorem draw_single_consumption_witness :
    (draw ⟨[⟨0, ElemType.rect, some ⟨1, 1, 5, 5⟩, true, false, true, true⟩],
        [], true, 800, 600, none⟩).1.aborted = none ∧
    (draw ((draw ⟨[⟨0, ElemType.rect, some ⟨1, 1, 5, 5⟩, true, false, true,
        true⟩], [], true, 800, 600, none⟩).2)).1 =
      { fullRedraw := false, clearedWhole := false, regions := [],
        selected := [], painted := [], aborted := none } := by
  have h : (draw ⟨[⟨0, ElemType.rect, some ⟨1, 1, 5, 5⟩, true, false, true,
      true⟩], [], true, 800, 600, none⟩).1.aborted = none := rfl
  exact ⟨h, (draw_single_consumption _ h).2.2.1⟩

/-- The element and dirty state used to settle C5: a partial-redraw frame
with one pending dirty region and a single element whose screen bounds are
not computable. -/
def unsizedElement : Element := ⟨0, ElemType.image, none, false, false, false, true⟩

def stateC5 : RendererState :=
  ⟨[unsizedElement], [⟨0, 0, 100, 100⟩], false, 800, 600, none⟩

/-- C5 counterexample: on a non-full-redraw frame with a nonempty dirty set,
an element whose screen bounds are not computable is NOT included in the set
of elements selected for repaint — the partial path of `Renderer.draw`
throws the TypeError of the unexported bounds helper at this very element
(its first non-edited one), so the frame aborts with nothing selected and
nothing painted, contradicting "always included". -/
theorem unsized_element_not_included :
    stateC5.fullRedraw = false ∧ stateC5.dirtyRegions ≠ [] ∧
    unsizedElement ∈ stateC5.elements ∧
    (draw stateC5).1.selected = [] ∧
    (draw stateC5).1.aborted = some unsizedElement.id := by
  refine ⟨rfl, by simp [stateC5], by simp [stateC5], rfl, rfl⟩

/-- If the list holds an element that is not being edited, the partial-redraw
element loop reaches a non-edited element and throws there. -/
theorem firstNonEditing_of_mem (s : RendererState) (l : List Element)
    (e : Element) (he : e ∈ l) (hne : isEditing s e = false) :
    ∃ i, firstNonEditing s l = some i := by
  induction l with
  | nil => simp at he
  | cons x xs ih =>
    simp only [firstNonEditing]
    by_cases hx : isEditing s x = true
    · simp only [hx, if_true]
      rcases List.mem_cons.mp he with rfl | he'
      · rw [hne] at hx
        simp at hx
      · exact ih he'
    · simp [hx]

/-- C5 (amended): on a non-full-redraw frame an element whose screen bounds
are not computable is never included in the repaint selection, regardless of
the dirty region set — indeed no element ever is: the partial path's element
loop throws a TypeError at its first non-edited element (before any
selection) because `dirtyRegions.js` does not export the bounds helper
`Renderer.js` reads from it, and when every element is skipped as being
edited it selects none; with a pending dirty region and at least one
non-edited element the frame aborts. -/
theorem unsized_element_never_selected (s : RendererState) (e : Element)
    (hfr : s.fullRedraw = false) :
    e ∉ (draw s).1.selected ∧
    (0 < s.dirtyRegions.length → e ∈ s.elements → isEditing s e = false →
      ∃ i, (draw s).1.aborted = some i) := by
  constructor
  · by_cases hd : 0 < s.dirtyRegions.length
    · cases hfe : firstNonEditing s s.elements with
      | some i => simp [draw, hfr, hd, hfe]
      | none => simp [draw, hfr, hd, hfe]
    · simp [draw, hfr, hd]
  · intro hd he hne
    obtain ⟨i, hi⟩ := firstNonEditing_of_mem s s.elements e he hne
    exact ⟨i, by simp [draw, hfr, hd, hi]⟩

theorem unsized_element_never_selected_witness :
    unsizedElement ∉ (draw stateC5).1.selected ∧
    ∃ i, (draw stateC5).1.aborted = some i :=
  ⟨(unsized_element_never_selected stateC5 unsizedElement rfl).1,
   (unsized_element_never_selected stateC5 unsizedElement rfl).2
     (by decide) (by simp [stateC5]) rfl⟩

/-- The elements used to settle C6: a rect whose paint primitive throws,
followed by a healthy rect, on a full-redraw frame. -/
def failingRect : Element :=
  ⟨0, ElemType.rect, some ⟨0, 0, 10, 10⟩, true, false, true, false⟩

def okRect : Element :=
  ⟨1, ElemType.rect, some ⟨20, 20, 10, 10⟩, true, false, true, true⟩

def stateC6 : RendererState := ⟨[failingRect, okRect], [], true, 800, 600, none⟩

/-- C6 counterexample: a rect element whose paint routine throws aborts the
frame — the next element is selected but never painted, because `draw` has no
per-element try/catch; failure is only contained inside `drawImageElement`,
not at the frame-paint boundary for every element type. -/
theorem paint_failure_aborts_frame :
    okRect ∈ (draw stateC6).1.selected ∧
    (draw stateC6).1.painted = [] ∧
    (draw stateC6).1.aborted = some failingRect.id := by
  refine ⟨?_, rfl, rfl⟩
  show okRect ∈ [failingRect, okRect]
  simp

/-- Every path of `drawImageElement` returns normally: decode/size failures
draw a placeholder, and the `try { ctx.drawImage } catch` swallows a paint
throw. -/
theorem drawImageElement_ok (e : Element) :
    ∃ a, drawImageElement e = Except.ok a := by
  unfold drawImageElement
  split
  · split
    · exact ⟨_, rfl⟩
    · exact ⟨_, rfl⟩
  · split
    · exact ⟨_, rfl⟩
    · split
      · exact ⟨_, rfl⟩
      · exact ⟨_, rfl⟩

/-- C6 (amended): only image-element paint failures are contained — an image
element's paint never propagates a failure (the try/catch inside
`drawImageElement` catches it and draws a placeholder), and the paint loop
always continues past an image element; a failing rect or text paint
propagates uncaught and aborts the remainder of the frame
(`paint_failure_aborts_frame`). -/
theorem image_paint_failure_contained (e : Element) (rest : List Element)
    (h : e.etype = ElemType.image) :
    (∃ a, drawElementByType e = Except.ok a) ∧
    paintAll (e :: rest) = (e.id :: (paintAll rest).1, (paintAll rest).2) := by
  have hok : ∃ a, drawElementByType e = Except.ok a := by
    unfold drawElementByType
    rw [h]
    exact drawImageElement_ok e
  obtain ⟨a, ha⟩ := hok
  exact ⟨⟨a, ha⟩, by simp [paintAll, ha]⟩

theorem image_paint_failure_contained_witness :
    (⟨2, ElemType.image, some ⟨0, 0, 5, 5⟩, true, false, true, false⟩
        : Element).etype = ElemType.image ∧
    paintAll [⟨2, ElemType.image, some ⟨0, 0, 5, 5⟩, true, false, true,
        false⟩, okRect] =
      (2 :: (paintAll [okRect]).1, (paintAll [okRect]).2) :=
  ⟨rfl, (image_paint_failure_contained _ [okRect] rfl).2⟩

/-- C7 — Dirty-mark input filtering: `markDirty` appends exactly one buffered
region when the element's computed screen bounds exist with positive width
and positive height; otherwise (no bounds, or a nonpositive dimension) it
leaves the state unchanged.  It is a total function — it never raises — and
no branch inspects `left`/`top`, so a negative position alone never drops the
region. -/
theorem markDirty_filtering (s : RendererState) (e : Element) :
    (∀ b, e.bounds = some b → 0 < b.width → 0 < b.height →
      markDirty s e =
        { s with dirtyRegions := s.dirtyRegions ++ [bufferedRegion b] }) ∧
    (e.bounds = none → markDirty s e = s) ∧
    (∀ b, e.bounds = some b → b.width ≤ 0 ∨ b.height ≤ 0 →
      markDirty s e = s) := by
  refine ⟨?_, ?_, ?_⟩
  · intro b hb hw hh
    have hcond : ¬ (b.width ≤ 0 ∨ b.height ≤ 0) := by
      push_neg
      exact ⟨hw, hh⟩
    simp only [markDirty, hb]
    rw [if_neg hcond]
  · intro hb
    simp only [markDirty, hb]
  · intro b hb hwh
    simp only [markDirty, hb]
    rw [if_pos hwh]

theorem markDirty_filtering_witness :
    (⟨-5, -7, 10, 20⟩ : Bounds).left < 0 ∧ (0 : ℚ) < 10 ∧ (0 : ℚ) < 20 ∧
    markDirty ⟨[], [], false, 800, 600, none⟩
        ⟨3, ElemType.rect, some ⟨-5, -7, 10, 20⟩, true, false, true, true⟩ =
      { elements := [], dirtyRegions := [bufferedRegion ⟨-5, -7, 10, 20⟩],
        fullRedraw := false, canvasWidth := 800, canvasHeight := 600,
        editingElement := none } := by
  refine ⟨by norm_num, by norm_num, by norm_num, ?_⟩
  have h := (markDirty_filtering ⟨[], [], false, 800, 600, none⟩
      ⟨3, ElemType.rect, some ⟨-5, -7, 10, 20⟩, true, false, true, true⟩).1
      ⟨-5, -7, 10, 20⟩ rfl (by norm_num) (by norm_num)
  simpa using h

theorem paintAll_sublist (l : List Element) :
    (paintAll l).1.Sublist (l.map Element.id) := by
  induction l with
  | nil => simp [paintAll]
  | cons e rest ih =>
    cases h : drawElementByType e with
    | error a => simp [paintAll, h]
    | ok a =>
      simp only [paintAll, h, List.map_cons]
      exact List.Sublist.cons₂ _ ih

/-- C8 — Draw-order preservation: on every frame (full-redraw, partial, or
no-op path) the elements selected for repaint form a subsequence of the
element list in its original order, the completed paints are an
order-preserving subsequence of the selected elements, and
`LayerManager.render`'s selection is likewise an order-preserving
subsequence of its layer's elements. -/
theorem draw_order_preservation (s : RendererState)
    (intersects : Element → List Region → Bool) (els : List Element)
    (regionsOpt : Option (List Region)) :
    (draw s).1.selected.Sublist s.elements ∧
    (draw s).1.painted.Sublist ((draw s).1.selected.map Element.id) ∧
    (layerRenderSelection intersects els regionsOpt).Sublist els := by
  refine ⟨?_, ?_, ?_⟩
  · by_cases hf : s.fullRedraw = true
    · simp only [draw, hf, if_true]
      exact List.filter_sublist _
    · by_cases hd : 0 < s.dirtyRegions.length
      · cases hfe : firstNonEditing s s.elements with
        | some i => simp [draw, hf, hd, hfe]
        | none => simp [draw, hf, hd, hfe]
      · simp [draw, hf, hd]
  · by_cases hf : s.fullRedraw = true
    · simp only [draw, hf, if_true]
      exact paintAll_sublist _
    · by_cases hd : 0 < s.dirtyRegions.length
      · cases hfe : firstNonEditing s s.elements with
        | some i => simp [draw, hf, hd, hfe]
        | none => simp [draw, hf, hd, hfe]
      · simp [draw, hf, hd, paintAll]
  · cases regionsOpt with
    | none => exact List.Sublist.refl _
    | some regions => exact List.filter_sublist _

/-! ## The duplicated merge engine of `CanvasFrameworkBuilder`
(`canvasFrameworkBuilder.js` lines 148–189) -/

namespace CanvasFrameworkBuilder

/-- `CanvasFrameworkBuilder.regionsOverlap(a, b)` (lines 176–178). -/
def regionsOverlap (a b : Region) : Bool :=
  !(a.x + a.width < b.x || b.x + b.width < a.x ||
    a.y + a.height < b.y || b.y + b.height < a.y)

/-- `CanvasFrameworkBuilder.combineRegions(a, b)` (lines 180–189). -/
def combineRegions (a b : Region) : Region :=
  let x := min a.x b.x
  let y := min a.y b.y
  { x := x, y := y,
    width := max (a.x + a.width) (b.x + b.width) - x,
    height := max (a.y + a.height) (b.y + b.height) - y }

/-- The inner `for j` loop of `CanvasFrameworkBuilder.mergeRegions`
(lines 161–168), mirrored exactly as for `dirtyRegions.js`. -/
def absorb (base : Region) : List Region → Region × List Region × Bool
  | [] => (base, [], false)
  | r :: rs =>
    if regionsOverlap base r then
      let (b, l, _) := absorb (combineRegions base r) rs
      (b, l, true)
    else
      let (b, l, m) := absorb base rs
      (b, r :: l, m)

end CanvasFrameworkBuilder

theorem cfb_regionsOverlap_eq (a b : Region) :
    CanvasFrameworkBuilder.regionsOverlap a b = regionsOverlap a b := rfl

theorem cfb_combineRegions_eq (a b : Region) :
    CanvasFrameworkBuilder.combineRegions a b = combineRegions a b := rfl

theorem cfb_absorb_eq (base : Region) (l : List Region) :
    CanvasFrameworkBuilder.absorb base l = absorb base l := by
  induction l generalizing base with
  | nil => rfl
  | cons r rs ih =>
    simp only [CanvasFrameworkBuilder.absorb, absorb,
      cfb_regionsOverlap_eq, cfb_combineRegions_eq, ih]

namespace CanvasFrameworkBuilder

/-- One full pass of the `do … while` loop of
`CanvasFrameworkBuilder.mergeRegions` (lines 153–171). -/
def onePass : List Region → List Region × Bool
  | [] => ([], false)
  | r :: rs =>
    let a := absorb r rs
    let p := onePass a.2.1
    (a.1 :: p.1, a.2.2 || p.2)
  termination_by l => l.length
  decreasing_by
    simp only [List.length_cons, cfb_absorb_eq]
    exact Nat.lt_succ_of_le (absorb_length r rs)

end CanvasFrameworkBuilder

theorem cfb_onePass_eq (l : List Region) :
    CanvasFrameworkBuilder.onePass l = onePass l := by
  induction' hn : l.length using Nat.strong_induction_on with n ih generalizing l
  match l, hn with
  | [], _ => simp [CanvasFrameworkBuilder.onePass, onePass]
  | r :: rs, hn =>
    simp only [List.length_cons] at hn
    have hlen := absorb_length r rs
    simp only [CanvasFrameworkBuilder.onePass, onePass, cfb_absorb_eq,
      ih (absorb r rs).2.1.length (by omega) (absorb r rs).2.1 rfl]

namespace CanvasFrameworkBuilder

/-- The `do … while (didMerge)` loop of
`CanvasFrameworkBuilder.mergeRegions`. -/
def mergeLoop (l : List Region) : List Region :=
  let p := onePass l
  if h : p.2 = true then mergeLoop p.1 else p.1
  termination_by l.length
  decreasing_by
    have h' : (onePass l).2 = true := h
    show (onePass l).1.length < l.length
    rw [cfb_onePass_eq] at h'
    rw [cfb_onePass_eq]
    exact onePass_didMerge_length l h'

/-- `CanvasFrameworkBuilder.mergeRegions(regions)` (lines 148–173). -/
def mergeRegions (regions : List Region) : List Region :=
  if regions.length ≤ 1 then regions else mergeLoop regions

end CanvasFrameworkBuilder

theorem cfb_mergeLoop_eq (l : List Region) :
    CanvasFrameworkBuilder.mergeLoop l = mergeLoop l := by
  induction' hn : l.length using Nat.strong_induction_on with n ih generalizing l
  rw [CanvasFrameworkBuilder.mergeLoop]
  rw [mergeLoop]
  by_cases hd : (onePass l).2 = true
  · rw [cfb_onePass_eq]
    simp only [hd, dif_pos]
    exact ih (onePass l).1.length (hn ▸ onePass_didMerge_length l hd)
      (onePass l).1 rfl
  · rw [cfb_onePass_eq]
    simp [hd]

/-- C10 — Implementation equivalence of the two region-merging engines: the
free functions of `dirtyRegions.js` and the methods of
`CanvasFrameworkBuilder` compute identical results on every input. -/
theorem merge_engines_equivalent :
    (∀ a b, CanvasFrameworkBuilder.regionsOverlap a b = regionsOverlap a b) ∧
    (∀ a b, CanvasFrameworkBuilder.combineRegions a b = combineRegions a b) ∧
    (∀ l, CanvasFrameworkBuilder.mergeRegions l = mergeRegions l) := by
  refine ⟨cfb_regionsOverlap_eq, cfb_combineRegions_eq, ?_⟩
  intro l
  rw [CanvasFrameworkBuilder.mergeRegions, mergeRegions]
  by_cases h : l.length ≤ 1
  · rw [if_pos h, if_pos h]
  · rw [if_neg h, if_neg h, cfb_mergeLoop_eq]
